import Mathlib

/-!
Verification of the `school_grader` core: the equality strategies and
distance/similarity primitives of `src/school_grader/equality.py`, and the
timeout guard and execution harness of `src/school_grader/test_case.py`,
shallowly embedded as executable Lean definitions.

Python strings are embedded as `List Char` (ASCII payloads; the repository
only manipulates ASCII text).  Raised Python exceptions are embedded as
explicit result values.
-/

namespace SchoolGrader

/-! ## Python string helpers -/

/-- Python whitespace characters, as matched by `\s` in `re` and stripped by
`str.strip()` (ASCII subset: space, tab, newline, carriage return, vertical
tab, form feed). -/
def isPySpace (c : Char) : Bool :=
  c == ' ' || c == '\t' || c == '\n' || c == '\r' || c == '\x0b' || c == '\x0c'

/-- Python `str.lower()` on one character (ASCII range, the only range the
repository exercises). -/
def pyLowerChar (c : Char) : Char :=
  if 'A' ≤ c ∧ c ≤ 'Z' then Char.ofNat (c.toNat + 32) else c

/-- Python `str.lower()`. -/
def pyLower (s : List Char) : List Char := s.map pyLowerChar

/-- `re.sub(r"\s+", "", s)`: replacing every whitespace run with the empty
string removes exactly the whitespace characters. -/
def removeWhitespace (s : List Char) : List Char := s.filter (fun c => !isPySpace c)

/-! ## Transformation-capable equality strategies (`equality.py`, class `Equal`)

Each `Equal` subclass contributes a static
`alter_expected_and_value_to_test(expected, value_to_test)` returning the
transformed pair; `Equal.validate` applies the alteration and then runs
`assertEqual` on the result. -/

/-- The type of an `alter_expected_and_value_to_test` step. -/
abbrev AlterFn := List Char → List Char → List Char × List Char

/-- `CaseInsensitiveStringEquality.alter_expected_and_value_to_test`:
lower-case both sides. -/
def caseInsensitiveAlter : AlterFn := fun expected valueToTest =>
  (pyLower expected, pyLower valueToTest)

/-- `WhiteSpaceInsensitiveEquality.alter_expected_and_value_to_test`:
remove all whitespace from both sides. -/
def whiteSpaceInsensitiveAlter : AlterFn := fun expected valueToTest =>
  (removeWhitespace expected, removeWhitespace valueToTest)

/-- `CombineEqualities(*equalities)`: the generated
`CombinedEquality.alter_expected_and_value_to_test` runs the `for` loop
`for equality in equalities: expected, value_to_test = equality.alter_...`,
threading the pair through each step in declaration order.  (The loop also
type-checks each step with `isinstance(equality, Equal)`; here every element
of the list is an alteration step, i.e. transformation-capable.) -/
def combinedAlter : List AlterFn → List Char → List Char → List Char × List Char
  | [], expected, valueToTest => (expected, valueToTest)
  | f :: rest, expected, valueToTest =>
    let p := f expected valueToTest
    combinedAlter rest p.1 p.2

/-- `Equal.validate`: alter the pair, then `assertEqual(expected, value_to_test)`.
`true` means the assertion passes (no `AssertionError`). -/
def equalValidate (alter : AlterFn) (expected valueToTest : List Char) : Bool :=
  let p := alter expected valueToTest
  p.1 == p.2

/-! ## Numeric token extraction (`equality.py`, `AlmostEqualNumber.validate`)

`validate` runs `re.findall(r'[-+]?\d*\.\d+|\d+', s)` on both sides.  The
scan below mirrors Python's backtracking semantics: at each position the
first alternative `[-+]?\d*\.\d+` is tried (optional sign, greedy digits,
a mandatory dot, at least one digit), then the second alternative `\d+`;
on failure the scan advances one character. -/

/-- Match `\d*\.\d+` at the head of `l`, returning the token and the rest.
The greedy `\d*` cannot backtrack usefully: every shorter digit run is
followed by a digit, never by the required dot. -/
def matchDecimalBody (l : List Char) : Option (List Char × List Char) :=
  let ds := l.takeWhile Char.isDigit
  match l.dropWhile Char.isDigit with
  | '.' :: r2 =>
    let fs := r2.takeWhile Char.isDigit
    if fs = [] then none
    else some (ds ++ '.' :: fs, r2.dropWhile Char.isDigit)
  | _ => none

/-- `-` or `+`, as matched by `[-+]`. -/
def isSignChar (c : Char) : Bool := c == '-' || c == '+'

/-- Match the first alternative `[-+]?\d*\.\d+` at the head of `l`.  When a
sign is present but the body fails, backtracking to the empty sign also
fails (the body would have to start at the sign character, which is neither
a digit nor a dot). -/
def matchAlt1 (l : List Char) : Option (List Char × List Char) :=
  match l with
  | [] => none
  | c :: cs =>
    if isSignChar c then
      match matchDecimalBody cs with
      | some (tok, rest) => some (c :: tok, rest)
      | none => none
    else matchDecimalBody l

/-- Match the second alternative `\d+` at the head of `l`. -/
def matchAlt2 (l : List Char) : Option (List Char × List Char) :=
  let ds := l.takeWhile Char.isDigit
  if ds = [] then none else some (ds, l.dropWhile Char.isDigit)

/-- Match the whole pattern `[-+]?\d*\.\d+|\d+` at the head of `l` (the left
alternative is preferred, as in Python). -/
def matchNumber (l : List Char) : Option (List Char × List Char) :=
  match matchAlt1 l with
  | some r => some r
  | none => matchAlt2 l

/-- The `re.findall` scan: emit the match at the current position and resume
after it, or advance one character.  `fuel` bounds the number of scan steps;
every step consumes at least one character, so `l.length` steps suffice (see
`findNumbersAux_fuel_sufficient`). -/
def findNumbersAux : Nat → List Char → List (List Char)
  | 0, _ => []
  | fuel + 1, l =>
    match matchNumber l with
    | some (tok, rest) => tok :: findNumbersAux fuel rest
    | none =>
      match l with
      | [] => []
      | _ :: cs => findNumbersAux fuel cs

/-- `re.findall(r'[-+]?\d*\.\d+|\d+', l)`. -/
def findNumbers (l : List Char) : List (List Char) := findNumbersAux l.length l

/-- The declarative shape of the tokens the pattern `[-+]?\d*\.\d+|\d+` can
produce: either a nonempty run of digits (no sign), or an optionally signed
`digits . digits⁺` decimal. -/
def TokenShape (t : List Char) : Prop :=
  (t ≠ [] ∧ ∀ c ∈ t, c.isDigit = true) ∨
  (∃ sign ds fs, (sign = [] ∨ sign = ['-'] ∨ sign = ['+']) ∧
    (∀ c ∈ ds, c.isDigit = true) ∧ fs ≠ [] ∧ (∀ c ∈ fs, c.isDigit = true) ∧
    t = sign ++ ds ++ '.' :: fs)

/-- Modelled from the claim's words (not from the source): a scanner for the
token pattern `[-+]?digits(.digits)?`, i.e. `[-+]?\d+(\.\d+)?`, under which
a signed integer is one token including its sign and a bare fraction `.5`
is not a token.  Used only to compare the claim against the code. -/
def claimedMatchBody (l : List Char) : Option (List Char × List Char) :=
  let ds := l.takeWhile Char.isDigit
  if ds = [] then none
  else
    match l.dropWhile Char.isDigit with
    | '.' :: r2 =>
      let fs := r2.takeWhile Char.isDigit
      if fs = [] then some (ds, l.dropWhile Char.isDigit)
      else some (ds ++ '.' :: fs, r2.dropWhile Char.isDigit)
    | r1 => some (ds, r1)

/-- Modelled from the claim's words: match `[-+]?\d+(\.\d+)?` at the head. -/
def claimedMatchNumber (l : List Char) : Option (List Char × List Char) :=
  match l with
  | [] => none
  | c :: cs =>
    if isSignChar c then
      match claimedMatchBody cs with
      | some (tok, rest) => some (c :: tok, rest)
      | none => none
    else claimedMatchBody l

/-- Modelled from the claim's words: the `findall` scan for the claimed
pattern `[-+]?\d+(\.\d+)?`. -/
def claimedFindNumbersAux : Nat → List Char → List (List Char)
  | 0, _ => []
  | fuel + 1, l =>
    match claimedMatchNumber l with
    | some (tok, rest) => tok :: claimedFindNumbersAux fuel rest
    | none =>
      match l with
      | [] => []
      | _ :: cs => claimedFindNumbersAux fuel cs

/-- Modelled from the claim's words: all tokens of the claimed pattern. -/
def claimedFindNumbers (l : List Char) : List (List Char) :=
  claimedFindNumbersAux l.length l

/-- Outcome of the token-count check in `AlmostEqualNumber.validate`:
either the `AssertionError` data, or the token pairs handed to the
`assertAlmostEqual` loop (whose binary floating-point rounding is outside
this embedding). -/
inductive NumCheck where
  | countMismatch (expectedCount gotCount : Nat) : NumCheck
  | proceed (pairs : List (List Char × List Char)) : NumCheck
deriving DecidableEq, Repr

/-- The message of the count-mismatch `AssertionError`:
`f"Expected {a} numbers, but got {b}"`. -/
def numberCountMismatchMsg (a b : Nat) : String :=
  "Expected " ++ toString a ++ " numbers, but got " ++ toString b

/-- The extraction and count-check prefix of `AlmostEqualNumber.validate`. -/
def almostEqualNumberCheck (expected valueToTest : List Char) : NumCheck :=
  let expectedNumbers := findNumbers expected
  let resultNumbers := findNumbers valueToTest
  if expectedNumbers.length ≠ resultNumbers.length then
    NumCheck.countMismatch expectedNumbers.length resultNumbers.length
  else
    NumCheck.proceed (expectedNumbers.zip resultNumbers)

/-! ## Timeout guard (`test_case.py`, `timeout`)

The decorated `inner` sets `timer = None`; inside `try`, when
`timeout_time is not None` it starts a `threading.Timer` that will
`_thread.interrupt_main()` (delivering a `KeyboardInterrupt` to the main
thread), then calls `function`.  `except KeyboardInterrupt` re-raises as
`TimeoutError`; `finally` cancels the timer when one was started.

The guarded body is embedded by its outcome: `none` for a normal return,
`some e` for raising `e` (a `KeyboardInterrupt` outcome covers both a
timer-delivered interrupt and one raised by the work itself). -/

/-- The Python exceptions the embedded fragments can surface. -/
inductive PyExc where
  | keyboardInterrupt : PyExc
  | timeoutError (msg : String) : PyExc
  | assertionError (msg : String) : PyExc
  | typeError (msg : String) : PyExc
  | other (msg : String) : PyExc
deriving DecidableEq, Repr

/-- Python f-string rendering of `timeout_time` (an `int` or `None`). -/
def pyFormatOptNat : Option Nat → String
  | none => "None"
  | some n => toString n

/-- The message of the `TimeoutError` raised by the guard. -/
def timeoutMessage (timeoutTime : Option Nat) : String :=
  "Program execution did not finish within the allotted time of " ++
    pyFormatOptNat timeoutTime ++ " seconds. You may be in an infinite loop."

/-- Observable facts about one run of the guarded call. -/
structure GuardRun where
  /-- `none` if `inner` returned normally, otherwise the exception it raised. -/
  result : Option PyExc
  /-- whether a deadline timer was created and started during the call -/
  timerStarted : Bool
  /-- whether a deadline timer is still armed once the call has returned -/
  timerArmedAfter : Bool
deriving DecidableEq, Repr

/-- One run of `inner` from the `timeout` decorator, given the outcome of
`function(*args, **kwargs)`. -/
def timeoutGuard (timeoutTime : Option Nat) (work : Option PyExc) : GuardRun :=
  -- timer = None
  -- if timeout_time is not None: timer = threading.Timer(...); timer.start()
  let timerStarted := timeoutTime.isSome
  let armedAfterStart := timerStarted
  -- function(*args, **kwargs); except KeyboardInterrupt: raise TimeoutError(...)
  let result : Option PyExc :=
    match work with
    | some PyExc.keyboardInterrupt => some (PyExc.timeoutError (timeoutMessage timeoutTime))
    | r => r
  -- finally: if timer is not None: timer.cancel()
  let armedFinal := if timerStarted then false else armedAfterStart
  { result := result, timerStarted := timerStarted, timerArmedAfter := armedFinal }

/-! ## Scripted input (`test_case.py`, `FileTestCase.override_input`)

`override_input` closes over `queue = deque(self._mock_input)`; each call of
the returned `fake_input` pops the left end, or raises `AssertionError` when
the queue is empty (leaving the queue empty). -/

/-- The message of the exhausted-queue `AssertionError`. -/
def tooManyInputMsg : String := "Too many input calls. Check your code"

/-- One call of `fake_input`: either the popped string and the remaining
queue, or the `AssertionError` message. -/
def fakeInputStep : List String → Except String (String × List String)
  | [] => Except.error tooManyInputMsg
  | x :: xs => Except.ok (x, xs)

/-- The queue contents after `n` calls of `fake_input` (a failed call leaves
the queue unchanged). -/
def queueAfter (initialQueue : List String) : Nat → List String
  | 0 => initialQueue
  | n + 1 =>
    match fakeInputStep (queueAfter initialQueue n) with
    | Except.ok p => p.2
    | Except.error _ => queueAfter initialQueue n

/-- The outcome of the `n`-th call of `fake_input` (0-based). -/
def fakeInputCall (initialQueue : List String) (n : Nat) : Except String String :=
  (fakeInputStep (queueAfter initialQueue n)).map Prod.fst

/-! ## Output validation (`test_case.py`, `FileTestCase.runTest`)

After running the file, the harness computes
`output = fake_out.getvalue().strip().splitlines()`, raises an
`AssertionError` when the line count differs from `len(self._expected_output)`,
and otherwise walks `zip(output, self._expected_output)`: a `str` entry is
checked with `assertEqual`, an `Equality` entry with `expected.validate(...)`;
the first failing position raises and aborts the loop. -/

/-- Python `str.strip()`: drop leading and trailing whitespace characters. -/
def pyStrip (s : List Char) : List Char :=
  ((s.dropWhile isPySpace).reverse.dropWhile isPySpace).reverse

/-- Line-boundary characters of Python `str.splitlines()` other than the
two-character boundary `\r\n`, which is handled separately. -/
def isLineBreak (c : Char) : Bool :=
  c == '\n' || c == '\r' || c == '\x0b' || c == '\x0c' ||
  c == '\x1c' || c == '\x1d' || c == '\x1e' || c == '\x85' ||
  c == '\u2028' || c == '\u2029'

/-- The `str.splitlines()` scan; `acc` holds the current line reversed.  A
trailing boundary does not open a final empty line. -/
def splitlinesAux : List Char → List Char → List (List Char)
  | [], acc => if acc.isEmpty then [] else [acc.reverse]
  | '\r' :: '\n' :: rest, acc => acc.reverse :: splitlinesAux rest []
  | c :: rest, acc =>
    if isLineBreak c then acc.reverse :: splitlinesAux rest []
    else splitlinesAux rest (c :: acc)

/-- Python `str.splitlines()`. -/
def pySplitlines (s : List Char) : List (List Char) := splitlinesAux s []

/-- `fake_out.getvalue().strip().splitlines()`: the captured-output lines the
harness validates. -/
def harnessLines (captured : List Char) : List (List Char) :=
  pySplitlines (pyStrip captured)

/-- A line that is empty or all-whitespace. -/
def isBlankLine (l : List Char) : Bool := l.all isPySpace

/-- Modelled from the claim's words (not from the source): split the captured
output into lines and trim the leading and trailing blank lines, leaving
every surviving line intact.  Used only to compare the claim against the
code's `strip().splitlines()`. -/
def claimedLines (captured : List Char) : List (List Char) :=
  (((pySplitlines captured).dropWhile isBlankLine).reverse.dropWhile
    isBlankLine).reverse

/-- One entry of `self._expected_output`: a literal line, or an `Equality`
strategy embedded by its `validate` outcome on the received line (`none`
passes, `some msg` raises `AssertionError(msg)`).  The code's third branch —
`TypeError` for a value of any other type — has no counterpart here because
the inductive admits no other values. -/
inductive ExpectedEntry where
  | lit (s : List Char) : ExpectedEntry
  | eq (validate : List Char → Option String) : ExpectedEntry

/-- A validation failure of `runTest`. -/
inductive VError where
  | countMismatch (got expected : Nat) : VError
  | litMismatch (got expected : List Char) : VError
  | strategyFail (msg : String) : VError
deriving DecidableEq, Repr

/-- The line-count `AssertionError` message:
`f'The output of your program contains {got} lines. You should have
{expected} lines'`. -/
def lineCountMsg (got expected : Nat) : String :=
  "The output of your program contains " ++ toString got ++
    " lines. You should have " ++ toString expected ++ " lines"

/-- Checking one captured line against one expected entry.  A literal entry
runs `assertEqual(result, expected, self._fail_message)` (the unittest
mismatch rendering and the optional custom message are carried structurally
by `litMismatch`); an `Equality` entry delegates to the strategy. -/
def entryCheck (got : List Char) (e : ExpectedEntry) : Option VError :=
  match e with
  | ExpectedEntry.lit s => if got = s then none else some (VError.litMismatch got s)
  | ExpectedEntry.eq validate =>
    match validate got with
    | none => none
    | some msg => some (VError.strategyFail msg)

/-- The `for result, expected in zip(output, self._expected_output)` loop:
the first raised error aborts the walk. -/
def validateLoop : List (List Char × ExpectedEntry) → Option VError
  | [] => none
  | (g, e) :: rest =>
    match entryCheck g e with
    | some err => some err
    | none => validateLoop rest

/-- The validation step of `runTest` on the captured output. -/
def validateOutput (expected : List ExpectedEntry) (captured : List Char) :
    Option VError :=
  let output := harnessLines captured
  if output.length ≠ expected.length then
    some (VError.countMismatch output.length expected.length)
  else validateLoop (output.zip expected)

/-! ## Channel bracketing (`test_case.py`, `FileTestCase.runTest`)

`runTest` executes the file inside
`with patch('builtins.input', ...), patch('sys.stdout', new=StringIO())`,
with an inner `try: ... finally: sys.stdout = sys.__stdout__`.  Python runs
the `finally` block and the context managers' `__exit__` (which restores the
values saved at `__enter__`) on every exit path, including exceptions. -/

/-- The process-wide `builtins.input` binding. -/
inductive InputChannel where
  | real : InputChannel
  | scripted (queue : List String) : InputChannel
deriving DecidableEq, Repr

/-- The process-wide `sys.stdout` binding. -/
inductive OutputChannel where
  | real : OutputChannel
  | captured : OutputChannel
deriving DecidableEq, Repr

/-- The shared channel state. -/
structure SysState where
  stdin : InputChannel
  stdout : OutputChannel
deriving DecidableEq, Repr

/-- How the `try` body ended: the file ran to completion producing the
captured text (validation then runs), or raised (any error, a failed
assertion, or the timeout interrupt). -/
inductive RunOutcome where
  | finishes (captured : List Char) : RunOutcome
  | raises (e : PyExc) : RunOutcome

/-- `try: body finally: fin` — `fin` updates the state on both the normal
and the raising path, and the body's outcome is re-raised. -/
def tryFinally (body : SysState → SysState × Option (PyExc ⊕ VError))
    (fin : SysState → SysState) (st : SysState) :
    SysState × Option (PyExc ⊕ VError) :=
  let p := body st
  (fin p.1, p.2)

/-- The `try` body of `runTest`: run the file, then validate.  The body never
touches the channel bindings itself. -/
def execBody (expected : List ExpectedEntry) (run : RunOutcome) (st : SysState) :
    SysState × Option (PyExc ⊕ VError) :=
  match run with
  | RunOutcome.raises e => (st, some (Sum.inl e))
  | RunOutcome.finishes captured =>
    (st, (validateOutput expected captured).map Sum.inr)

/-- The channel bracketing of `runTest`: enter both patches, run the guarded
body with its `finally: sys.stdout = sys.__stdout__`, then leave the patches,
which restore the bindings saved on entry. -/
def runTestExec (mockInput : List String) (expected : List ExpectedEntry)
    (run : RunOutcome) (saved : SysState) : SysState × Option (PyExc ⊕ VError) :=
  -- with patch('builtins.input', self.override_input()), patch('sys.stdout', new=StringIO()):
  let entered : SysState :=
    { stdin := InputChannel.scripted mockInput, stdout := OutputChannel.captured }
  let p := tryFinally (execBody expected run)
    (fun st => { st with stdout := OutputChannel.real }) entered
  -- the patches' __exit__ restore the values saved at __enter__
  ({ stdin := saved.stdin, stdout := saved.stdout }, p.2)

/-! ## Longest common substring (`equality.py`, `ContainsEquality`) -/

/-- Longest common prefix length of two lists. -/
def cpl : List Char → List Char → Nat
  | a :: as, b :: bs => if a = b then cpl as bs + 1 else 0
  | _, _ => 0

/-- Longest common suffix length of two lists. -/
def csl (a b : List Char) : Nat := cpl a.reverse b.reverse

/-- The DP table of `_find_largest_substring`: zero on the borders, and for
`i, j ≥ 1` the recurrence `table[i][j] = table[i-1][j-1] + 1` when
`word[i-1] == target[j-1]`, else the initial `0` — the length of the longest
common suffix of `word[:i]` and `target[:j]` (`lcsTable_eq_csl`). -/
def lcsTable (word target : List Char) : Nat → Nat → Nat
  | 0, _ => 0
  | _ + 1, 0 => 0
  | i + 1, j + 1 =>
    if word.getD i ' ' = target.getD j ' ' then lcsTable word target i j + 1 else 0

/-- One inner-loop step of `_find_largest_substring` at cell `(i+1, j+1)`
(`i`, `j` are the 0-based loop counters): on a character match the table
value is written and compared against the running `max_length`; on strict
improvement `(max_length, end_index)` becomes `(table[i][j], i)` in the
source's 1-based indexing, i.e. `(v, i + 1)` here. -/
def lcsStep (word target : List Char) (i : Nat) (st : Nat × Nat) (j : Nat) :
    Nat × Nat :=
  if word.getD i ' ' = target.getD j ' ' then
    let v := lcsTable word target (i + 1) (j + 1)
    if st.1 < v then (v, i + 1) else st
  else st

/-- The inner `for j in range(1, target_length + 1)` loop over one row. -/
def lcsRow (word target : List Char) (st : Nat × Nat) (i : Nat) : Nat × Nat :=
  (List.range target.length).foldl (lcsStep word target i) st

/-- The `(max_length, end_index)` state after the first `r` iterations of
the outer loop. -/
def lcsScanUpTo (word target : List Char) (r : Nat) : Nat × Nat :=
  (List.range r).foldl (lcsRow word target) (0, 0)

/-- The outer `for i in range(1, word_length + 1)` loop: the final
`(max_length, end_index)` pair. -/
def lcsScan (word target : List Char) : Nat × Nat :=
  (List.range word.length).foldl (lcsRow word target) (0, 0)

/-- Python slice `l[a:b]` (for the in-range, non-negative indices the scan
produces). -/
def pySlice (l : List Char) (a b : Nat) : List Char := (l.drop a).take (b - a)

/-- `ContainsEquality._find_largest_substring(word, target)`: the slice
`word[end_index - max_length : end_index]`. -/
def find_largest_substring (word target : List Char) : List Char :=
  let p := lcsScan word target
  pySlice word (p.2 - p.1) p.2

/-- `ContainsEquality.alter_expected_and_value_to_test`: if
`expected in value_to_test` (substring containment, decidable here via
`List.decidableInfix`) return `(expected, expected)`, otherwise pair
`expected` with the largest common substring of the value under test and the
expected value. -/
def containsAlter (expected valueToTest : List Char) : List Char × List Char :=
  if expected <:+: valueToTest then (expected, expected)
  else (expected, find_largest_substring valueToTest expected)

/-- `ContainsEquality`'s inherited `Equal.validate`: alter, then
`assertEqual`; `true` means the assertion passes. -/
def containsValidate (expected valueToTest : List Char) : Bool :=
  let p := containsAlter expected valueToTest
  p.1 == p.2

/-! ## Levenshtein distance (`equality.py`, `AlmostEqualString._levenshtein`) -/

/-- The DP matrix of `_levenshtein`: first column `matrix[i][0] = i`, first
row `matrix[0][j] = j`, and inside the minimum of deletion, insertion and
substitution (`cost` 0 on equal characters). -/
def levMatrix (s1 s2 : List Char) : Nat → Nat → Nat
  | i, 0 => i
  | 0, j + 1 => j + 1
  | i + 1, j + 1 =>
    min (levMatrix s1 s2 i (j + 1) + 1)
      (min (levMatrix s1 s2 (i + 1) j + 1)
        (levMatrix s1 s2 i j + if s1.getD i ' ' = s2.getD j ' ' then 0 else 1))

/-- `AlmostEqualString._levenshtein(s1, s2)`: the bottom-right matrix entry
`matrix[-1][-1]`. -/
def levenshtein (s1 s2 : List Char) : Nat := levMatrix s1 s2 s1.length s2.length

/-- The same three-way recurrence as a front-to-back structural recursion;
`levMatrix s1 s2 i j` equals `recLev` on the reversed `i`- and `j`-prefixes
(`levMatrix_eq_recLev`). -/
def recLev : List Char → List Char → Nat
  | [], ys => ys.length
  | x :: xs, [] => (x :: xs).length
  | x :: xs, y :: ys =>
    min (recLev xs (y :: ys) + 1)
      (min (recLev (x :: xs) ys + 1) (recLev xs ys + if x = y then 0 else 1))
termination_by s1 s2 => s1.length + s2.length
decreasing_by
  all_goals simp [List.length_cons]
  all_goals omega

/-- Alignment-style edit scripts: `EditScript a b n` holds when `a` is
transformed into `b` by `n` single-character insertions, deletions and
substitutions (both strings processed left to right, matching characters
copied for free). -/
inductive EditScript : List Char → List Char → Nat → Prop where
  | nil : EditScript [] [] 0
  | copy (c : Char) {as bs : List Char} {n : Nat} :
      EditScript as bs n → EditScript (c :: as) (c :: bs) n
  | subst (c d : Char) {as bs : List Char} {n : Nat} :
      EditScript as bs n → EditScript (c :: as) (d :: bs) (n + 1)
  | del (c : Char) {as bs : List Char} {n : Nat} :
      EditScript as bs n → EditScript (c :: as) bs (n + 1)
  | ins (d : Char) {as bs : List Char} {n : Nat} :
      EditScript as bs n → EditScript as (d :: bs) (n + 1)

/-! ## Theorems -/

theorem queueAfter_eq_drop (l : List String) (n : Nat) : queueAfter l n = l.drop n := by
  induction n with
  | zero => rfl
  | succ n ih =>
    rw [queueAfter, ih]
    cases h : l.drop n with
    | nil =>
      have hle : l.length ≤ n := List.drop_eq_nil_iff.mp h
      have : l.drop (n + 1) = [] := List.drop_eq_nil_iff.mpr (Nat.le_succ_of_le hle)
      simp [fakeInputStep, this]
    | cons x xs =>
      have : l.drop (n + 1) = xs := by
        have ht := List.tail_drop l n
        rw [h] at ht
        simpa using ht.symm
      simp [fakeInputStep, this]

theorem cpl_nil_left (b : List Char) : cpl [] b = 0 := by
  cases b <;> rfl

theorem cpl_nil_right (a : List Char) : cpl a [] = 0 := by
  cases a <;> rfl

theorem cpl_le_left (a : List Char) : ∀ b : List Char, cpl a b ≤ a.length := by
  induction a with
  | nil => intro b; rw [cpl_nil_left]; exact Nat.zero_le _
  | cons x xs ih =>
    intro b
    cases b with
    | nil => rw [cpl_nil_right]; exact Nat.zero_le _
    | cons y ys =>
      rw [cpl]
      split
      · have := ih ys
        simp [List.length_cons]
        omega
      · exact Nat.zero_le _

theorem cpl_take_eq (a : List Char) :
    ∀ b : List Char, a.take (cpl a b) = b.take (cpl a b) := by
  induction a with
  | nil => intro b; rw [cpl_nil_left]; simp
  | cons x xs ih =>
    intro b
    cases b with
    | nil => rw [cpl_nil_right]; simp
    | cons y ys =>
      rw [cpl]
      split
      · rename_i hxy
        rw [List.take_succ_cons, List.take_succ_cons, hxy, ih ys]
      · simp

theorem cpl_ge_common (p : List Char) :
    ∀ a b : List Char, p <+: a → p <+: b → p.length ≤ cpl a b := by
  induction p with
  | nil => intro a b _ _; exact Nat.zero_le _
  | cons x ps ih =>
    intro a b ha hb
    obtain ⟨ta, hta⟩ := ha
    obtain ⟨tb, htb⟩ := hb
    subst hta htb
    rw [List.cons_append, List.cons_append, cpl, if_pos rfl]
    have := ih (ps ++ ta) (ps ++ tb) ⟨ta, rfl⟩ ⟨tb, rfl⟩
    simp [List.length_cons]
    omega

theorem csl_le_left (a b : List Char) : csl a b ≤ a.length := by
  have := cpl_le_left a.reverse b.reverse
  simpa [csl] using this

theorem csl_realize (a b : List Char) :
    ∃ s : List Char, s.length = csl a b ∧ s <:+ a ∧ s <:+ b := by
  refine ⟨(a.reverse.take (cpl a.reverse b.reverse)).reverse, ?_, ?_, ?_⟩
  · simp only [csl, List.length_reverse, List.length_take]
    exact Nat.min_eq_left (by simpa using cpl_le_left a.reverse b.reverse)
  · exact List.reverse_prefix.mp
      (by simpa using List.take_prefix (cpl a.reverse b.reverse) a.reverse)
  · exact List.reverse_prefix.mp
      (by simpa [cpl_take_eq a.reverse b.reverse] using
        List.take_prefix (cpl a.reverse b.reverse) b.reverse)

theorem csl_ge_common (s a b : List Char) (ha : s <:+ a) (hb : s <:+ b) :
    s.length ≤ csl a b := by
  have h1 : s.reverse <+: a.reverse := List.reverse_prefix.mpr ha
  have h2 : s.reverse <+: b.reverse := List.reverse_prefix.mpr hb
  have := cpl_ge_common s.reverse a.reverse b.reverse h1 h2
  simpa [csl] using this

theorem suffix_eq_drop (s l : List Char) (h : s <:+ l) :
    s = l.drop (l.length - s.length) := by
  obtain ⟨u, hu⟩ := h
  subst hu
  rw [List.length_append, Nat.add_sub_cancel, List.drop_left]

theorem lcsTable_le_left (word target : List Char) :
    ∀ i j : Nat, lcsTable word target i j ≤ i := by
  intro i
  induction i with
  | zero => intro j; rw [lcsTable]
  | succ n ih =>
    intro j
    cases j with
    | zero => rw [lcsTable]; exact Nat.zero_le _
    | succ m =>
      rw [lcsTable]
      split
      · exact Nat.succ_le_succ (ih m)
      · exact Nat.zero_le _

theorem lcsTable_eq_csl (word target : List Char) :
    ∀ i j : Nat, i ≤ word.length → j ≤ target.length →
      lcsTable word target i j = csl (word.take i) (target.take j) := by
  intro i
  induction i with
  | zero =>
    intro j _ _
    rw [lcsTable]
    simp [csl, cpl_nil_left]
  | succ n ih =>
    intro j hn hj
    cases j with
    | zero =>
      rw [lcsTable]
      simp [csl, cpl_nil_right]
    | succ m =>
      have hn' : n < word.length := hn
      have hm' : m < target.length := hj
      have ht1 : (word.take (n + 1)).reverse = word[n] :: (word.take n).reverse := by
        rw [List.take_succ, List.getElem?_eq_getElem hn']
        simp
      have ht2 : (target.take (m + 1)).reverse
          = target[m] :: (target.take m).reverse := by
        rw [List.take_succ, List.getElem?_eq_getElem hm']
        simp
      rw [lcsTable, List.getD_eq_getElem word ' ' hn', List.getD_eq_getElem target ' ' hm',
        csl, ht1, ht2, cpl]
      by_cases hc : word[n] = target[m]
      · rw [if_pos hc, if_pos hc, ih m (Nat.le_of_lt hn') (Nat.le_of_lt hm')]
        rfl
      · rw [if_neg hc, if_neg hc]

theorem lcsStep_cases (word target : List Char) (i : Nat) (st : Nat × Nat) (j : Nat) :
    lcsStep word target i st j = st ∨
    (lcsStep word target i st j = (lcsTable word target (i + 1) (j + 1), i + 1) ∧
      st.1 < lcsTable word target (i + 1) (j + 1)) := by
  simp only [lcsStep]
  split
  · split
    · right; exact ⟨rfl, by assumption⟩
    · left; rfl
  · left; rfl

theorem lcsStep_fst_le (word target : List Char) (i : Nat) (st : Nat × Nat) (j : Nat) :
    st.1 ≤ (lcsStep word target i st j).1 := by
  rcases lcsStep_cases word target i st j with h | ⟨h, hlt⟩
  · rw [h]
  · rw [h]; exact Nat.le_of_lt hlt

theorem lcsStep_cell_le (word target : List Char) (i : Nat) (st : Nat × Nat) (j : Nat) :
    lcsTable word target (i + 1) (j + 1) ≤ (lcsStep word target i st j).1 := by
  simp only [lcsStep]
  split
  · split
    · exact Nat.le_refl _
    · rename_i h; exact Nat.le_of_not_lt h
  · rename_i hne
    rw [lcsTable, if_neg hne]
    exact Nat.zero_le _

theorem lcsRow_fold_spec (word target : List Char) (i : Nat) :
    ∀ (js : List Nat) (st : Nat × Nat),
      st.1 ≤ (js.foldl (lcsStep word target i) st).1 ∧
      (∀ j ∈ js, lcsTable word target (i + 1) (j + 1)
        ≤ (js.foldl (lcsStep word target i) st).1) ∧
      (js.foldl (lcsStep word target i) st = st ∨
        ((js.foldl (lcsStep word target i) st).2 = i + 1 ∧
         st.1 < (js.foldl (lcsStep word target i) st).1 ∧
         ∃ j ∈ js, lcsTable word target (i + 1) (j + 1)
           = (js.foldl (lcsStep word target i) st).1)) := by
  intro js
  induction js with
  | nil => intro st; exact ⟨Nat.le_refl _, by simp, Or.inl rfl⟩
  | cons j rest ih =>
    intro st
    simp only [List.foldl_cons]
    obtain ⟨ihmono, ihcell, ihdisj⟩ := ih (lcsStep word target i st j)
    refine ⟨Nat.le_trans (lcsStep_fst_le word target i st j) ihmono, ?_, ?_⟩
    · intro j0 hj0
      rcases List.mem_cons.mp hj0 with h | h
      · subst h
        exact Nat.le_trans (lcsStep_cell_le word target i st j0) ihmono
      · exact ihcell j0 h
    · rcases ihdisj with hsame | ⟨hend, hlt, j0, hj0, hcell⟩
      · rw [hsame]
        rcases lcsStep_cases word target i st j with h | ⟨h, hlt⟩
        · left; exact h
        · right
          exact ⟨by rw [h], by rw [h]; exact hlt, j, List.mem_cons_self _ _, by rw [h]⟩
      · right
        exact ⟨hend, Nat.lt_of_le_of_lt (lcsStep_fst_le word target i st j) hlt,
          j0, List.mem_cons_of_mem _ hj0, hcell⟩

theorem lcsRow_spec (word target : List Char) (st : Nat × Nat) (i : Nat) :
    st.1 ≤ (lcsRow word target st i).1 ∧
    (∀ j, j < target.length →
      lcsTable word target (i + 1) (j + 1) ≤ (lcsRow word target st i).1) ∧
    (lcsRow word target st i = st ∨
      ((lcsRow word target st i).2 = i + 1 ∧ st.1 < (lcsRow word target st i).1 ∧
       ∃ j, j < target.length ∧
         lcsTable word target (i + 1) (j + 1) = (lcsRow word target st i).1)) := by
  obtain ⟨h1, h2, h3⟩ := lcsRow_fold_spec word target i (List.range target.length) st
  refine ⟨h1, fun j hj => h2 j (List.mem_range.mpr hj), ?_⟩
  rcases h3 with h | ⟨ha, hb, j, hj, hc⟩
  · exact Or.inl h
  · exact Or.inr ⟨ha, hb, j, List.mem_range.mp hj, hc⟩

theorem lcsScanUpTo_succ (word target : List Char) (r : Nat) :
    lcsScanUpTo word target (r + 1) = lcsRow word target (lcsScanUpTo word target r) r := by
  rw [lcsScanUpTo, lcsScanUpTo, List.range_succ, List.foldl_append]
  rfl

theorem lcsScanUpTo_inv (word target : List Char) :
    ∀ r : Nat, r ≤ word.length →
      (lcsScanUpTo word target r).1 ≤ (lcsScanUpTo word target r).2 ∧
      (lcsScanUpTo word target r).2 ≤ r ∧
      ((lcsScanUpTo word target r).1 = 0 → (lcsScanUpTo word target r).2 = 0) ∧
      (∀ i j, i < r → j < target.length →
        lcsTable word target (i + 1) (j + 1) ≤ (lcsScanUpTo word target r).1) ∧
      ((lcsScanUpTo word target r).1 ≠ 0 →
        ∃ j, j < target.length ∧
          lcsTable word target (lcsScanUpTo word target r).2 (j + 1)
            = (lcsScanUpTo word target r).1) ∧
      (∀ i j, 1 ≤ i → i < (lcsScanUpTo word target r).2 → j < target.length →
        lcsTable word target i (j + 1) < (lcsScanUpTo word target r).1) := by
  intro r
  induction r with
  | zero =>
    intro _
    refine ⟨Nat.le_refl _, Nat.le_refl _, fun _ => rfl, ?_, ?_, ?_⟩
    · intro i j hi _; exact absurd hi (Nat.not_lt_zero i)
    · intro h; exact absurd rfl h
    · intro i j _ hi _
      exact absurd hi (by show ¬ i < (lcsScanUpTo word target 0).2; simp [lcsScanUpTo])
  | succ r ih =>
    intro hr
    obtain ⟨i1, i2, i3, i4, i5, i6⟩ := ih (Nat.le_of_succ_le hr)
    obtain ⟨r1, r2, r3⟩ := lcsRow_spec word target (lcsScanUpTo word target r) r
    rw [← lcsScanUpTo_succ] at r1 r2 r3
    rcases r3 with hsame | ⟨hend, hlt, j0, hj0, hcell⟩
    · rw [hsame]
      refine ⟨i1, Nat.le_succ_of_le i2, i3, ?_, i5, i6⟩
      intro i j hi hj
      rcases Nat.lt_succ_iff_lt_or_eq.mp hi with hi | hi
      · exact i4 i j hi hj
      · subst hi
        have := r2 j hj
        rw [hsame] at this
        exact this
    · have hmax : ∀ i j, i < r + 1 → j < target.length →
          lcsTable word target (i + 1) (j + 1) ≤ (lcsScanUpTo word target (r + 1)).1 := by
        intro i j hi hj
        rcases Nat.lt_succ_iff_lt_or_eq.mp hi with hi | hi
        · exact Nat.le_of_lt (Nat.lt_of_le_of_lt (i4 i j hi hj) hlt)
        · subst hi
          exact r2 j hj
      refine ⟨?_, ?_, ?_, hmax, ?_, ?_⟩
      · rw [hend, ← hcell]
        exact lcsTable_le_left word target _ _
      · rw [hend]
      · intro h
        rw [h] at hlt
        exact absurd hlt (Nat.not_lt_zero _)
      · intro _
        exact ⟨j0, hj0, by rw [hend]; exact hcell⟩
      · intro i j h1 h2 hj
        rw [hend] at h2
        cases i with
        | zero => exact absurd h1 (by simp)
        | succ k =>
          exact Nat.lt_of_le_of_lt (i4 k j (Nat.lt_of_succ_lt_succ h2) hj) hlt

theorem lcsScan_eq_upTo (word target : List Char) :
    lcsScan word target = lcsScanUpTo word target word.length := rfl

theorem fls_infix_word (word target : List Char) :
    find_largest_substring word target <:+: word := by
  simp only [find_largest_substring, pySlice]
  exact List.IsInfix.trans (List.IsPrefix.isInfix (List.take_prefix _ _))
    (List.IsSuffix.isInfix (List.drop_suffix _ _))

theorem fls_main (word target : List Char) :
    (find_largest_substring word target).length = (lcsScan word target).1 ∧
    find_largest_substring word target <:+ word.take (lcsScan word target).2 ∧
    find_largest_substring word target <:+: target := by
  have inv := lcsScanUpTo_inv word target word.length (Nat.le_refl _)
  rw [← lcsScan_eq_upTo] at inv
  obtain ⟨hme, hel, hz, _, hatt, _⟩ := inv
  by_cases hm0 : (lcsScan word target).1 = 0
  · have he0 := hz hm0
    have hr : find_largest_substring word target = [] := by
      simp only [find_largest_substring, pySlice, he0, hm0]
      simp
    rw [hr, hm0, he0]
    exact ⟨rfl, by simp, List.nil_infix⟩
  · obtain ⟨j0, hj0, hcell⟩ := hatt hm0
    have he1 : 1 ≤ (lcsScan word target).2 := by
      rcases Nat.eq_zero_or_pos (lcsScan word target).2 with h | h
      · rw [h] at hcell
        rw [lcsTable] at hcell
        exact absurd hcell.symm hm0
      · exact h
    have hcsl : csl (word.take (lcsScan word target).2) (target.take (j0 + 1))
        = (lcsScan word target).1 := by
      rw [← lcsTable_eq_csl word target _ _ hel hj0]
      exact hcell
    obtain ⟨s, hslen, hsw, hst⟩ := csl_realize
      (word.take (lcsScan word target).2) (target.take (j0 + 1))
    rw [hcsl] at hslen
    have htl : (word.take (lcsScan word target).2).length = (lcsScan word target).2 := by
      rw [List.length_take]
      exact Nat.min_eq_left hel
    have hsd := suffix_eq_drop s _ hsw
    rw [htl, hslen] at hsd
    have hfr : find_largest_substring word target = s := by
      simp only [find_largest_substring, pySlice]
      rw [← List.drop_take, ← hsd]
    rw [hfr]
    refine ⟨hslen, hsw, ?_⟩
    exact List.IsInfix.trans (List.IsSuffix.isInfix hst)
      (List.IsPrefix.isInfix (List.take_prefix _ _))

theorem infix_ends (c l : List Char) (h : c <:+: l) :
    ∃ i, i ≤ l.length ∧ c <:+ l.take i ∧ (c ≠ [] → 1 ≤ i) := by
  obtain ⟨u, v, huv⟩ := h
  refine ⟨u.length + c.length, ?_, ?_, ?_⟩
  · rw [← huv]
    simp [List.length_append]
  · have ht : l.take (u.length + c.length) = u ++ c := by
      rw [← huv, List.append_assoc, List.take_append, List.take_left]
    rw [ht]
    exact ⟨u, rfl⟩
  · intro hc
    cases c with
    | nil => exact absurd rfl hc
    | cons x cs => simp [List.length_cons]; omega

theorem fls_max (word target : List Char) :
    ∀ c, c <:+: word → c <:+: target → c.length ≤ (lcsScan word target).1 := by
  intro c hcw hct
  rcases List.eq_nil_or_concat c with hc | _
  · rw [hc]; exact Nat.zero_le _
  have hcne : c ≠ [] := by
    rename_i hcc
    obtain ⟨_, _, hcc⟩ := hcc
    rw [hcc]; simp
  obtain ⟨i, hiw, hciw, hi1⟩ := infix_ends c word hcw
  obtain ⟨j, hjt, hcjt, hj1⟩ := infix_ends c target hct
  have hi1 := hi1 hcne
  have hj1 := hj1 hcne
  have hcsl : c.length ≤ csl (word.take i) (target.take j) :=
    csl_ge_common c _ _ hciw hcjt
  have htab := lcsTable_eq_csl word target i j hiw hjt
  obtain ⟨i0, rfl⟩ : ∃ i0, i = i0 + 1 := ⟨i - 1, by omega⟩
  obtain ⟨j0, rfl⟩ : ∃ j0, j = j0 + 1 := ⟨j - 1, by omega⟩
  have inv := lcsScanUpTo_inv word target word.length (Nat.le_refl _)
  rw [← lcsScan_eq_upTo] at inv
  have hmax := inv.2.2.2.1 i0 j0 (by omega) (by omega)
  omega

theorem fls_tiebreak (word target : List Char) :
    ∀ c i, c.length = (lcsScan word target).1 → (lcsScan word target).1 ≠ 0 →
      i ≤ word.length → c <:+ word.take i → c <:+: target →
      (lcsScan word target).2 ≤ i := by
  intro c i hlen hm0 hiw hci hct
  by_contra hlt
  push_neg at hlt
  have hcne : c ≠ [] := by
    intro h
    rw [h] at hlen
    exact hm0 hlen.symm
  have hi1 : 1 ≤ i := by
    cases i with
    | zero =>
      rw [List.take_zero] at hci
      obtain ⟨u, hu⟩ := hci
      exact absurd (List.append_eq_nil.mp hu).2 hcne
    | succ k => exact Nat.succ_le_succ (Nat.zero_le k)
  obtain ⟨j, hjt, hcjt, hj1⟩ := infix_ends c target hct
  have hj1 := hj1 hcne
  have hcsl : c.length ≤ csl (word.take i) (target.take j) :=
    csl_ge_common c _ _ hci hcjt
  have htab := lcsTable_eq_csl word target i j hiw hjt
  obtain ⟨j0, rfl⟩ : ∃ j0, j = j0 + 1 := ⟨j - 1, by omega⟩
  have inv := lcsScanUpTo_inv word target word.length (Nat.le_refl _)
  rw [← lcsScan_eq_upTo] at inv
  have hmin := inv.2.2.2.2.2 i j0 hi1 hlt (by omega)
  omega

/-- C9: `_find_largest_substring` returns a longest contiguous run of
characters occurring in both inputs: the result is a common substring, no
common substring is longer, and the result is empty when the inputs share no
character.  The tie among maximum-length common substrings is broken by the
earliest ending position in `word` met by the left-to-right, top-to-bottom
scan: the result ends at `end_index`, and every occurrence of a
maximum-length common substring ends at `end_index` or later (the output is
a function of the inputs, hence deterministic). -/
theorem find_largest_substring_correct (word target : List Char) :
    (find_largest_substring word target <:+: word ∧
      find_largest_substring word target <:+: target) ∧
    (∀ c, c <:+: word → c <:+: target →
      c.length ≤ (find_largest_substring word target).length) ∧
    (find_largest_substring word target ≠ [] →
      (find_largest_substring word target <:+ word.take (lcsScan word target).2 ∧
       ∀ c i, c.length = (find_largest_substring word target).length →
         i ≤ word.length → c <:+ word.take i → c <:+: target →
         (lcsScan word target).2 ≤ i)) ∧
    ((∀ ch ∈ word, ch ∉ target) → find_largest_substring word target = []) := by
  obtain ⟨hlen, hsuf, hinf⟩ := fls_main word target
  refine ⟨⟨fls_infix_word word target, hinf⟩, ?_, ?_, ?_⟩
  · intro c h1 h2
    rw [hlen]
    exact fls_max word target c h1 h2
  · intro hne
    have hm0 : (lcsScan word target).1 ≠ 0 := by
      intro h
      exact hne (List.eq_nil_of_length_eq_zero (by rw [hlen, h]))
    refine ⟨hsuf, fun c i hc hi hciw hct => ?_⟩
    exact fls_tiebreak word target c i (by rw [← hlen]; exact hc) hm0 hi hciw hct
  · intro hnoshare
    by_contra hne
    obtain ⟨x, xs, hx⟩ : ∃ x xs, find_largest_substring word target = x :: xs := by
      cases hr : find_largest_substring word target with
      | nil => exact absurd hr hne
      | cons x xs => exact ⟨x, xs, rfl⟩
    have hxw : x ∈ word :=
      (fls_infix_word word target).subset (by rw [hx]; exact List.mem_cons_self _ _)
    have hxt : x ∈ target :=
      hinf.subset (by rw [hx]; exact List.mem_cons_self _ _)
    exact hnoshare x hxw hxt

theorem find_largest_substring_correct_witness :
    (['a'] : List Char).length
      ≤ (find_largest_substring ['x', 'a', 'b'] ['a', 'b', 'a']).length ∧
    (lcsScan ['x', 'a', 'b'] ['a', 'b', 'a']).2 ≤ 3 ∧
    find_largest_substring ['a'] ['b'] = [] :=
  ⟨(find_largest_substring_correct ['x', 'a', 'b'] ['a', 'b', 'a']).2.1 ['a']
      (by decide) (by decide),
   ((find_largest_substring_correct ['x', 'a', 'b'] ['a', 'b', 'a']).2.2.1
      (by decide)).2 ['a', 'b'] 3 (by decide) (by decide) (by decide) (by decide),
   (find_largest_substring_correct ['a'] ['b']).2.2.2 (by decide)⟩

/-- C3: `ContainsEquality.validate` passes exactly when `expected` occurs as
a contiguous substring of `actual` (vacuously so for empty `expected`); when
`expected` is non-empty and not contained, the reported
longest-common-substring fragment can never equal `expected` — it is itself
a substring of `actual` — so the fragment is reporting-only and validation
always fails. -/
theorem contains_validate_iff_substring (expected valueToTest : List Char) :
    (containsValidate expected valueToTest = true ↔ expected <:+: valueToTest) ∧
    (expected ≠ [] → ¬ expected <:+: valueToTest →
      find_largest_substring valueToTest expected ≠ expected) := by
  have hfrag : ¬ expected <:+: valueToTest →
      find_largest_substring valueToTest expected ≠ expected := by
    intro hni heq
    exact hni (heq ▸ fls_infix_word valueToTest expected)
  refine ⟨?_, fun _ => hfrag⟩
  simp only [containsValidate, containsAlter]
  by_cases hin : expected <:+: valueToTest
  · rw [if_pos hin]
    simp [hin]
  · rw [if_neg hin]
    constructor
    · intro h
      exact absurd (beq_iff_eq.mp h).symm (hfrag hin)
    · intro h
      exact absurd h hin

theorem contains_validate_iff_substring_witness :
    containsValidate ['c', 'a', 't'] ['t', 'h', 'e', ' ', 'c', 'a', 't'] = true ∧
    find_largest_substring ['d', 'o', 'g'] ['c', 'a', 't'] ≠ ['c', 'a', 't'] :=
  ⟨(contains_validate_iff_substring ['c', 'a', 't']
      ['t', 'h', 'e', ' ', 'c', 'a', 't']).1.mpr (by decide),
   (contains_validate_iff_substring ['c', 'a', 't'] ['d', 'o', 'g']).2
      (by decide) (by decide)⟩

theorem take_succ_rev (l : List Char) (n : Nat) (h : n < l.length) :
    (l.take (n + 1)).reverse = l[n] :: (l.take n).reverse := by
  rw [List.take_succ, List.getElem?_eq_getElem h]
  simp

theorem recLev_nil_right (x : List Char) : recLev x [] = x.length := by
  cases x with
  | nil => rw [recLev]
  | cons a as => rw [recLev]

theorem levMatrix_eq_recLev (s1 s2 : List Char) :
    ∀ i j, i ≤ s1.length → j ≤ s2.length →
      levMatrix s1 s2 i j = recLev ((s1.take i).reverse) ((s2.take j).reverse) := by
  intro i
  induction i with
  | zero =>
    intro j _ hj
    cases j with
    | zero =>
      rw [levMatrix]
      simp [recLev]
    | succ m =>
      rw [levMatrix]
      simp [recLev]
      omega
  | succ n ih =>
    intro j
    induction j with
    | zero =>
      intro hi _
      rw [levMatrix, List.take_zero, List.reverse_nil, recLev_nil_right,
        List.length_reverse, List.length_take]
      exact (Nat.min_eq_left hi).symm
    | succ m ihj =>
      intro hi hj
      have hn' : n < s1.length := hi
      have hm' : m < s2.length := hj
      rw [levMatrix, List.getD_eq_getElem s1 ' ' hn', List.getD_eq_getElem s2 ' ' hm',
        ih (m + 1) (Nat.le_of_lt hn') hj,
        ihj hi (Nat.le_of_succ_le hj),
        ih m (Nat.le_of_lt hn') (Nat.le_of_succ_le hj),
        take_succ_rev s1 n hn', take_succ_rev s2 m hm', recLev]

theorem levenshtein_eq_recLev (a b : List Char) :
    levenshtein a b = recLev a.reverse b.reverse := by
  rw [levenshtein,
    levMatrix_eq_recLev a b a.length b.length (Nat.le_refl _) (Nat.le_refl _),
    List.take_length, List.take_length]

theorem editScript_recLev : ∀ a b : List Char, EditScript a b (recLev a b) := by
  intro a
  induction a with
  | nil =>
    intro b
    induction b with
    | nil => rw [recLev]; exact EditScript.nil
    | cons y ys ihb =>
      rw [recLev]
      exact EditScript.ins y (by rw [recLev] at ihb; exact ihb)
  | cons x xs ih =>
    intro b
    induction b with
    | nil =>
      rw [recLev_nil_right]
      have h0 : EditScript xs [] xs.length := by
        have := ih []
        rw [recLev_nil_right] at this
        exact this
      exact EditScript.del x h0
    | cons y ys ihb =>
      rw [recLev]
      have h1 := ih (y :: ys)
      have h2 := ihb
      have h3 := ih ys
      have hmin : min (recLev xs (y :: ys) + 1)
          (min (recLev (x :: xs) ys + 1)
            (recLev xs ys + if x = y then 0 else 1))
          = recLev xs (y :: ys) + 1 ∨
        min (recLev xs (y :: ys) + 1)
          (min (recLev (x :: xs) ys + 1)
            (recLev xs ys + if x = y then 0 else 1))
          = recLev (x :: xs) ys + 1 ∨
        min (recLev xs (y :: ys) + 1)
          (min (recLev (x :: xs) ys + 1)
            (recLev xs ys + if x = y then 0 else 1))
          = recLev xs ys + if x = y then 0 else 1 := by
        omega
      rcases hmin with h | h | h
      · rw [h]; exact EditScript.del x h1
      · rw [h]; exact EditScript.ins y h2
      · rw [h]
        by_cases hxy : x = y
        · rw [if_pos hxy]
          subst hxy
          exact EditScript.copy x h3
        · rw [if_neg hxy]
          exact EditScript.subst x y h3

theorem editScript_ge (a b : List Char) (n : Nat) (h : EditScript a b n) :
    recLev a b ≤ n := by
  induction h with
  | nil => rw [recLev]; exact Nat.le_refl _
  | @copy c as bs k _ ih =>
    have hle : recLev (c :: as) (c :: bs) ≤ recLev as bs + if c = c then 0 else 1 := by
      rw [recLev]
      exact Nat.le_trans (Nat.min_le_right _ _) (Nat.min_le_right _ _)
    rw [if_pos rfl] at hle
    omega
  | @subst c d as bs k _ ih =>
    have hle : recLev (c :: as) (d :: bs) ≤ recLev as bs + if c = d then 0 else 1 := by
      rw [recLev]
      exact Nat.le_trans (Nat.min_le_right _ _) (Nat.min_le_right _ _)
    have hcost : (if c = d then 0 else 1) ≤ 1 := by split <;> omega
    omega
  | @del c as bs k _ ih =>
    cases bs with
    | nil =>
      rw [recLev_nil_right] at ih ⊢
      simp [List.length_cons]
      omega
    | cons y ys =>
      rw [recLev]
      have := Nat.min_le_left (recLev as (y :: ys) + 1)
        (min (recLev (c :: as) ys + 1) (recLev as ys + if c = y then 0 else 1))
      omega
  | @ins d as bs k _ ih =>
    cases as with
    | nil =>
      rw [recLev] at ih ⊢
      simp [List.length_cons]
      omega
    | cons x xs =>
      rw [recLev]
      have h1 := Nat.min_le_right (recLev xs (d :: bs) + 1)
        (min (recLev (x :: xs) bs + 1) (recLev xs bs + if x = d then 0 else 1))
      have h2 := Nat.min_le_left (recLev (x :: xs) bs + 1)
        (recLev xs bs + if x = d then 0 else 1)
      omega

theorem editScript_snoc_copy (c : Char) :
    ∀ {as bs : List Char} {n : Nat}, EditScript as bs n →
      EditScript (as ++ [c]) (bs ++ [c]) n := by
  intro as bs n h
  induction h with
  | nil => exact EditScript.copy c EditScript.nil
  | copy e _ ih => exact EditScript.copy e ih
  | subst e f _ ih => exact EditScript.subst e f ih
  | del e _ ih => exact EditScript.del e ih
  | ins d _ ih => exact EditScript.ins d ih

theorem editScript_snoc_subst (c d : Char) :
    ∀ {as bs : List Char} {n : Nat}, EditScript as bs n →
      EditScript (as ++ [c]) (bs ++ [d]) (n + 1) := by
  intro as bs n h
  induction h with
  | nil => exact EditScript.subst c d EditScript.nil
  | copy e _ ih => exact EditScript.copy e ih
  | subst e f _ ih => exact EditScript.subst e f ih
  | del e _ ih => exact EditScript.del e ih
  | ins d0 _ ih => exact EditScript.ins d0 ih

theorem editScript_snoc_del (c : Char) :
    ∀ {as bs : List Char} {n : Nat}, EditScript as bs n →
      EditScript (as ++ [c]) bs (n + 1) := by
  intro as bs n h
  induction h with
  | nil => exact EditScript.del c EditScript.nil
  | copy e _ ih => exact EditScript.copy e ih
  | subst e f _ ih => exact EditScript.subst e f ih
  | del e _ ih => exact EditScript.del e ih
  | ins d0 _ ih => exact EditScript.ins d0 ih

theorem editScript_snoc_ins (d : Char) :
    ∀ {as bs : List Char} {n : Nat}, EditScript as bs n →
      EditScript as (bs ++ [d]) (n + 1) := by
  intro as bs n h
  induction h with
  | nil => exact EditScript.ins d EditScript.nil
  | copy e _ ih => exact EditScript.copy e ih
  | subst e f _ ih => exact EditScript.subst e f ih
  | del e _ ih => exact EditScript.del e ih
  | ins d0 _ ih => exact EditScript.ins d0 ih

theorem editScript_reverse {a b : List Char} {n : Nat} (h : EditScript a b n) :
    EditScript a.reverse b.reverse n := by
  induction h with
  | nil => exact EditScript.nil
  | copy e _ ih =>
    rw [List.reverse_cons, List.reverse_cons]
    exact editScript_snoc_copy e ih
  | subst e f _ ih =>
    rw [List.reverse_cons, List.reverse_cons]
    exact editScript_snoc_subst e f ih
  | del e _ ih =>
    rw [List.reverse_cons]
    exact editScript_snoc_del e ih
  | ins d _ ih =>
    rw [List.reverse_cons]
    exact editScript_snoc_ins d ih

theorem recLev_self : ∀ a : List Char, recLev a a = 0 := by
  intro a
  induction a with
  | nil => rw [recLev]; rfl
  | cons x xs ih =>
    rw [recLev, if_pos rfl, ih]
    omega

theorem recLev_comm : ∀ a b : List Char, recLev a b = recLev b a := by
  intro a
  induction a with
  | nil =>
    intro b
    rw [recLev, recLev_nil_right]
  | cons x xs ih =>
    intro b
    induction b with
    | nil => rw [recLev_nil_right, recLev]
    | cons y ys ihb =>
      rw [recLev, recLev, ih (y :: ys), ihb, ih ys]
      have hc : (if x = y then 0 else 1) = (if y = x then 0 else 1) := by
        by_cases hxy : x = y
        · rw [if_pos hxy, if_pos hxy.symm]
        · rw [if_neg hxy, if_neg (fun h => hxy h.symm)]
      rw [hc]
      omega

/-- C8: `_levenshtein` computes the minimum number of single-character
insertions, deletions and substitutions transforming `s1` into `s2` (a
number of edits is achievable, and no edit script is shorter); when one
string is empty the distance is the length of the other, the distance from
any string to itself is `0`, and the function is symmetric in its two
arguments. -/
theorem levenshtein_min_edits (a b : List Char) :
    EditScript a b (levenshtein a b) ∧
    (∀ n, EditScript a b n → levenshtein a b ≤ n) ∧
    levenshtein a [] = a.length ∧
    levenshtein [] b = b.length ∧
    levenshtein a a = 0 ∧
    levenshtein a b = levenshtein b a := by
  refine ⟨?_, ?_, ?_, ?_, ?_, ?_⟩
  · rw [levenshtein_eq_recLev]
    have h := editScript_reverse (editScript_recLev a.reverse b.reverse)
    rw [List.reverse_reverse, List.reverse_reverse] at h
    exact h
  · intro n h
    rw [levenshtein_eq_recLev]
    exact editScript_ge a.reverse b.reverse n (editScript_reverse h)
  · rw [levenshtein_eq_recLev, List.reverse_nil, recLev_nil_right,
      List.length_reverse]
  · rw [levenshtein_eq_recLev, List.reverse_nil, recLev]
    exact List.length_reverse b
  · rw [levenshtein_eq_recLev, recLev_self]
  · rw [levenshtein_eq_recLev, levenshtein_eq_recLev, recLev_comm]

theorem levenshtein_min_edits_witness :
    levenshtein ['a', 'b'] ['a', 'c'] ≤ 1 :=
  (levenshtein_min_edits ['a', 'b'] ['a', 'c']).2.1 1
    (EditScript.copy 'a' (EditScript.subst 'b' 'c' EditScript.nil))

/-- C1: a combined equality built from the transformation-capable strategies
applies each step's alter-both-sides transformation in the declared order (the
loop is a left fold over the step list) and then performs one exact
comparison; in particular `CombineEqualities(CaseInsensitiveStringEquality,
WhiteSpaceInsensitiveEquality)` on expected `"Hello World"` versus actual
`"  hello   world  "` validates successfully. -/
theorem combined_equality_applies_steps_in_order
    (alters : List AlterFn) (expected valueToTest : List Char) :
    combinedAlter alters expected valueToTest
      = alters.foldl (fun p f => f p.1 p.2) (expected, valueToTest) ∧
    equalValidate (combinedAlter [caseInsensitiveAlter, whiteSpaceInsensitiveAlter])
      "Hello World".data "  hello   world  ".data = true := by
  constructor
  · induction alters generalizing expected valueToTest with
    | nil => rfl
    | cons f rest ih =>
      rw [combinedAlter, List.foldl_cons]
      exact ih _ _
  · decide

theorem length_dropWhile_le (p : Char → Bool) (x : List Char) :
    (x.dropWhile p).length ≤ x.length :=
  (List.dropWhile_sublist p).length_le

theorem matchDecimalBody_shape (l tok rest : List Char)
    (h : matchDecimalBody l = some (tok, rest)) :
    ∃ ds fs, (∀ c ∈ ds, c.isDigit = true) ∧ fs ≠ [] ∧ (∀ c ∈ fs, c.isDigit = true) ∧
      tok = ds ++ '.' :: fs := by
  simp only [matchDecimalBody] at h
  split at h
  · split at h
    · exact absurd h (by simp)
    · rename_i r2 _ hfs
      injection h with h1
      injection h1 with htok hrest
      exact ⟨l.takeWhile Char.isDigit, r2.takeWhile Char.isDigit,
        fun c hc => List.mem_takeWhile_imp hc, hfs,
        fun c hc => List.mem_takeWhile_imp hc, htok.symm⟩
  · exact absurd h (by simp)

theorem matchAlt2_some (l tok rest : List Char)
    (h : matchAlt2 l = some (tok, rest)) :
    tok = l.takeWhile Char.isDigit ∧ rest = l.dropWhile Char.isDigit ∧
      l.takeWhile Char.isDigit ≠ [] := by
  simp only [matchAlt2] at h
  split at h
  · exact absurd h (by simp)
  · rename_i hne
    injection h with h1
    injection h1 with htok hrest
    exact ⟨htok.symm, hrest.symm, hne⟩

theorem matchDecimalBody_rest_length (x t r : List Char)
    (hx : matchDecimalBody x = some (t, r)) : r.length < x.length := by
  simp only [matchDecimalBody] at hx
  split at hx
  · split at hx
    · exact absurd hx (by simp)
    · rename_i r2 hdw _
      injection hx with hx
      injection hx with htok hrest
      have h1 : r2.length < x.length := by
        have h2 : ('.' :: r2).length ≤ x.length := hdw ▸ length_dropWhile_le _ x
        simpa using h2
      rw [← hrest]
      exact Nat.lt_of_le_of_lt (length_dropWhile_le _ r2) h1
  · exact absurd hx (by simp)

theorem matchAlt1_some (l tok rest : List Char)
    (h : matchAlt1 l = some (tok, rest)) :
    ∃ sign ds fs, (sign = [] ∨ sign = ['-'] ∨ sign = ['+']) ∧
      (∀ c ∈ ds, c.isDigit = true) ∧ fs ≠ [] ∧ (∀ c ∈ fs, c.isDigit = true) ∧
      tok = sign ++ ds ++ '.' :: fs ∧ rest.length < l.length := by
  cases l with
  | nil => simp [matchAlt1] at h
  | cons c cs =>
    rw [matchAlt1] at h
    by_cases hs : isSignChar c
    · rw [if_pos hs] at h
      cases hb : matchDecimalBody cs with
      | some pr2 =>
        obtain ⟨t0, r0⟩ := pr2
        rw [hb] at h
        injection h with h
        injection h with htok hrest
        obtain ⟨ds, fs, hds, hfs, hfd, ht⟩ := matchDecimalBody_shape cs t0 r0 hb
        have hc : c = '-' ∨ c = '+' := by
          rcases Bool.or_eq_true_iff.mp hs with hx | hx
          · exact Or.inl (by simpa using hx)
          · exact Or.inr (by simpa using hx)
        refine ⟨[c], ds, fs, by rcases hc with hx | hx <;> simp [hx],
          hds, hfs, hfd, ?_, ?_⟩
        · rw [← htok, ht]; simp
        · rw [← hrest]
          exact Nat.lt_trans (matchDecimalBody_rest_length cs t0 r0 hb) (by simp)
      | none => rw [hb] at h; exact absurd h (by simp)
    · rw [if_neg hs] at h
      obtain ⟨ds, fs, hds, hfs, hfd, ht⟩ := matchDecimalBody_shape (c :: cs) tok rest h
      exact ⟨[], ds, fs, Or.inl rfl, hds, hfs, hfd, by simpa using ht,
        matchDecimalBody_rest_length (c :: cs) tok rest h⟩

theorem matchNumber_shape (l tok rest : List Char)
    (h : matchNumber l = some (tok, rest)) : TokenShape tok := by
  cases h1 : matchAlt1 l with
  | some pr =>
    obtain ⟨t0, r0⟩ := pr
    simp only [matchNumber, h1] at h
    injection h with h
    injection h with htok hrest
    obtain ⟨sign, ds, fs, hsign, hds, hfs, hfd, ht, _⟩ := matchAlt1_some l t0 r0 h1
    exact Or.inr ⟨sign, ds, fs, hsign, hds, hfs, hfd, htok ▸ ht⟩
  | none =>
    simp only [matchNumber, h1] at h
    obtain ⟨htok, _, hne⟩ := matchAlt2_some l tok rest h
    refine Or.inl ⟨htok ▸ hne, ?_⟩
    intro c hc
    rw [htok] at hc
    exact List.mem_takeWhile_imp hc

theorem findNumbersAux_shape (fuel : Nat) :
    ∀ l, ∀ t ∈ findNumbersAux fuel l, TokenShape t := by
  induction fuel with
  | zero => intro l t ht; simp [findNumbersAux] at ht
  | succ n ih =>
    intro l t ht
    simp only [findNumbersAux] at ht
    cases hm : matchNumber l with
    | some pr =>
      rw [hm] at ht
      rcases List.mem_cons.mp ht with h | h
      · exact h ▸ matchNumber_shape l pr.1 pr.2 (by rw [hm])
      · exact ih pr.2 t h
    | none =>
      rw [hm] at ht
      cases l with
      | nil => exact absurd ht (List.not_mem_nil t)
      | cons c cs => exact ih cs t ht

theorem matchNumber_rest_length (l tok rest : List Char)
    (h : matchNumber l = some (tok, rest)) : rest.length < l.length := by
  cases h1 : matchAlt1 l with
  | some pr =>
    obtain ⟨t0, r0⟩ := pr
    simp only [matchNumber, h1] at h
    injection h with h
    injection h with htok hrest
    obtain ⟨_, _, _, _, _, _, _, _, hlen⟩ := matchAlt1_some l t0 r0 h1
    exact hrest ▸ hlen
  | none =>
    simp only [matchNumber, h1] at h
    obtain ⟨_, hrest, hne⟩ := matchAlt2_some l tok rest h
    cases l with
    | nil => simp [List.takeWhile] at hne
    | cons c cs =>
      rw [List.takeWhile_cons] at hne
      by_cases hd : c.isDigit
      · rw [hrest, List.dropWhile_cons, if_pos hd]
        exact Nat.lt_succ_of_le (length_dropWhile_le _ cs)
      · rw [if_neg hd] at hne
        exact absurd rfl hne

theorem findNumbersAux_congr :
    ∀ f1 f2 l : _, l.length ≤ f1 → l.length ≤ f2 →
      findNumbersAux f1 l = findNumbersAux f2 l := by
  intro f1
  induction f1 with
  | zero =>
    intro f2 l h1 _
    have : l = [] := List.eq_nil_of_length_eq_zero (Nat.le_zero.mp h1)
    subst this
    cases f2 <;> rfl
  | succ n ih =>
    intro f2 l h1 h2
    cases f2 with
    | zero =>
      have : l = [] := List.eq_nil_of_length_eq_zero (Nat.le_zero.mp h2)
      subst this
      rfl
    | succ k =>
      cases hm : matchNumber l with
      | some pr =>
        obtain ⟨t0, r0⟩ := pr
        have hlt := matchNumber_rest_length l t0 r0 hm
        simp only [findNumbersAux, hm]
        rw [ih k r0 (Nat.le_of_lt_succ (Nat.lt_of_lt_of_le hlt h1))
          (Nat.le_of_lt_succ (Nat.lt_of_lt_of_le hlt h2))]
      | none =>
        cases l with
        | nil => rfl
        | cons c cs =>
          simp only [findNumbersAux, hm]
          exact ih k cs (Nat.le_of_succ_le_succ h1) (Nat.le_of_succ_le_succ h2)

theorem findNumbersAux_fuel_sufficient (fuel : Nat) (l : List Char)
    (h : l.length ≤ fuel) : findNumbersAux fuel l = findNumbers l :=
  findNumbersAux_congr fuel l.length l h (Nat.le_refl _)

/-- C2 (amended): `AlmostEqualNumber.validate` extracts from each side, in
scan order, the substrings matching `[-+]?\d*\.\d+|\d+` — every extracted
token is either an unsigned digit run or an optionally signed
`digits . digits⁺` decimal, so a signed integer `-5` contributes the
unsigned token `5` (the sign attaches only to decimal-point tokens) while a
bare fraction `.5` is a single token — and it raises the count-mismatch
`AssertionError`, carrying both counts, exactly when the two sides yield
different numbers of tokens. -/
theorem almost_equal_number_extraction_and_count (expected valueToTest : List Char) :
    (∀ t ∈ findNumbers expected, TokenShape t) ∧
    ((∃ a b, almostEqualNumberCheck expected valueToTest = NumCheck.countMismatch a b)
      ↔ (findNumbers expected).length ≠ (findNumbers valueToTest).length) ∧
    ((findNumbers expected).length ≠ (findNumbers valueToTest).length →
      almostEqualNumberCheck expected valueToTest
        = NumCheck.countMismatch (findNumbers expected).length
            (findNumbers valueToTest).length) ∧
    findNumbers ['-', '5'] = [['5']] ∧ findNumbers ['.', '5'] = [['.', '5']] := by
  refine ⟨findNumbersAux_shape expected.length expected, ⟨?_, ?_⟩, ?_, by decide, by decide⟩
  · rintro ⟨a, b, hab⟩
    rw [almostEqualNumberCheck] at hab
    split at hab
    · assumption
    · exact absurd hab (by simp)
  · intro hne
    exact ⟨_, _, by rw [almostEqualNumberCheck, if_pos hne]⟩
  · intro hne
    rw [almostEqualNumberCheck, if_pos hne]

theorem almost_equal_number_extraction_and_count_witness :
    TokenShape ['5'] ∧
    almostEqualNumberCheck ['5'] [] = NumCheck.countMismatch 1 0 :=
  ⟨(almost_equal_number_extraction_and_count ['5'] []).1 ['5'] (by decide),
   (almost_equal_number_extraction_and_count ['5'] []).2.2.1 (by decide)⟩

/-- C2 (counterexample): the claim's token pattern `[-+]?digits(.digits)?`
disagrees with the code's pattern `[-+]?\d*\.\d+|\d+`: on `"-5"` the code
extracts the unsigned token `"5"` while the claimed pattern extracts `"-5"`,
and on `".5"` the code extracts the token `".5"` while under the claimed
pattern `".5"` is not a token (only its digit part `"5"` would match). -/
theorem numeric_token_pattern_counterexample :
    findNumbers ['-', '5'] = [['5']] ∧
    claimedFindNumbers ['-', '5'] = [['-', '5']] ∧
    findNumbers ['.', '5'] = [['.', '5']] ∧
    claimedFindNumbers ['.', '5'] = [['5']] ∧
    findNumbers ['-', '5'] ≠ claimedFindNumbers ['-', '5'] ∧
    findNumbers ['.', '5'] ≠ claimedFindNumbers ['.', '5'] := by
  decide

theorem entryCheck_ne_countMismatch (g : List Char) (e : ExpectedEntry)
    (a b : Nat) : entryCheck g e ≠ some (VError.countMismatch a b) := by
  cases e with
  | lit s =>
    rw [entryCheck]
    split
    · simp
    · simp
  | eq validate =>
    rw [entryCheck]
    cases validate g <;> simp

theorem validateLoop_ne_countMismatch (zs : List (List Char × ExpectedEntry))
    (a b : Nat) : validateLoop zs ≠ some (VError.countMismatch a b) := by
  induction zs with
  | nil => simp [validateLoop]
  | cons z rest ih =>
    obtain ⟨g, e⟩ := z
    rw [validateLoop]
    cases hc : entryCheck g e with
    | some err =>
      intro h
      injection h with h
      exact entryCheck_ne_countMismatch g e a b (h ▸ hc)
    | none => exact ih

theorem validateLoop_eq_none_iff (zs : List (List Char × ExpectedEntry)) :
    validateLoop zs = none ↔ ∀ p ∈ zs, entryCheck p.1 p.2 = none := by
  induction zs with
  | nil => simp [validateLoop]
  | cons z rest ih =>
    obtain ⟨g, e⟩ := z
    rw [validateLoop]
    cases hc : entryCheck g e with
    | some err =>
      simp only [List.mem_cons]
      constructor
      · intro h; exact absurd h (by simp)
      · intro h
        have := h (g, e) (Or.inl rfl)
        rw [hc] at this
        exact absurd this (by simp)
    | none =>
      rw [ih]
      constructor
      · intro h p hp
        rcases List.mem_cons.mp hp with hp | hp
        · rw [hp]; exact hc
        · exact h p hp
      · intro h p hp
        exact h p (List.mem_cons_of_mem _ hp)

theorem validateLoop_first_failure (pre : List (List Char × ExpectedEntry))
    (g : List Char) (e : ExpectedEntry) (post : List (List Char × ExpectedEntry))
    (err : VError) (hpre : ∀ q ∈ pre, entryCheck q.1 q.2 = none)
    (herr : entryCheck g e = some err) :
    validateLoop (pre ++ (g, e) :: post) = some err := by
  induction pre with
  | nil =>
    rw [List.nil_append, validateLoop, herr]
  | cons q rest ih =>
    obtain ⟨g0, e0⟩ := q
    rw [List.cons_append, validateLoop,
      hpre (g0, e0) (List.mem_cons_self _ _)]
    exact ih fun q hq => hpre q (List.mem_cons_of_mem _ hq)

/-- C5 (amended): the harness strips leading and trailing whitespace from the
captured output (which removes leading and trailing blank lines, and also
whitespace at the very start of the first surviving line and the very end of
the last) and splits the remainder into lines; validation fails with the
line-count mismatch error, carrying both counts, exactly when the resulting
line count differs from the length of the expected-output sequence;
otherwise each position is compared — literal entries by exact string
equality, `Equality` entries by delegating to that strategy's `validate` —
and the first mismatching position aborts validation with that failure.
In particular captured `"4"` against expected `["4", "9"]` fails with the
1-versus-2 line-count mismatch. -/
theorem harness_validation_line_checks (expected : List ExpectedEntry)
    (captured : List Char) :
    ((∃ a b, validateOutput expected captured = some (VError.countMismatch a b)) ↔
      (harnessLines captured).length ≠ expected.length) ∧
    ((harnessLines captured).length ≠ expected.length →
      validateOutput expected captured
        = some (VError.countMismatch (harnessLines captured).length expected.length)) ∧
    (validateOutput expected captured = none ↔
      (harnessLines captured).length = expected.length ∧
        ∀ p ∈ (harnessLines captured).zip expected, entryCheck p.1 p.2 = none) ∧
    (∀ pre g e post err,
      (harnessLines captured).zip expected = pre ++ (g, e) :: post →
      (harnessLines captured).length = expected.length →
      (∀ q ∈ pre, entryCheck q.1 q.2 = none) →
      entryCheck g e = some err →
      validateOutput expected captured = some err) ∧
    validateOutput [ExpectedEntry.lit ['4'], ExpectedEntry.lit ['9']] ['4']
      = some (VError.countMismatch 1 2) := by
  refine ⟨⟨?_, ?_⟩, ?_, ?_, ?_, rfl⟩
  · rintro ⟨a, b, hab⟩
    rw [validateOutput] at hab
    split at hab
    · assumption
    · exact absurd hab (validateLoop_ne_countMismatch _ a b)
  · intro hne
    exact ⟨_, _, by rw [validateOutput, if_pos hne]⟩
  · intro hne
    rw [validateOutput, if_pos hne]
  · rw [validateOutput]
    split
    · rename_i hne
      constructor
      · intro h; exact absurd h (by simp)
      · intro h; exact absurd h.1 hne
    · rename_i heq
      rw [validateLoop_eq_none_iff]
      exact ⟨fun h => ⟨Decidable.of_not_not heq, h⟩, fun h => h.2⟩
  · intro pre g e post err hzip hlen hpre herr
    rw [validateOutput, if_neg (by rw [hlen]; exact fun h => h rfl), hzip]
    exact validateLoop_first_failure pre g e post err hpre herr

theorem harness_validation_line_checks_witness :
    validateOutput [ExpectedEntry.lit ['4']] ['x']
      = some (VError.litMismatch ['x'] ['4']) ∧
    validateOutput [] ['x'] = some (VError.countMismatch 1 0) :=
  ⟨(harness_validation_line_checks [ExpectedEntry.lit ['4']] ['x']).2.2.2.1
      [] ['x'] (ExpectedEntry.lit ['4']) [] (VError.litMismatch ['x'] ['4'])
      rfl rfl (by intro q hq; exact absurd hq (List.not_mem_nil q)) rfl,
   (harness_validation_line_checks [] ['x']).2.1 (by decide)⟩

/-- C5 (counterexample): the claim describes the split as trimming only
leading and trailing blank lines, but the code's `strip().splitlines()` also
removes whitespace inside the boundary lines: on captured `" 4"` the code
produces the line `"4"` while the claimed split keeps `" 4"`, so a literal
expectation `" 4"` fails under the code although the claim's split would
accept it. -/
theorem harness_split_counterexample :
    harnessLines [' ', '4'] = [['4']] ∧
    claimedLines [' ', '4'] = [[' ', '4']] ∧
    harnessLines [' ', '4'] ≠ claimedLines [' ', '4'] ∧
    validateOutput [ExpectedEntry.lit [' ', '4']] [' ', '4']
      = some (VError.litMismatch ['4'] [' ', '4']) := by
  refine ⟨rfl, rfl, by decide, rfl⟩

/-- C6: the harness restores the pre-run input/output channel bindings on
every exit path — a normal return of the executed unit, an assertion failure
during validation, or any raised error including the timeout interrupt —
via `finally: sys.stdout = sys.__stdout__` and the two patches' scoped
restoration, so the channels (everything outside the captured buffer) are
unchanged for the next run; in particular starting from the real channels it
always ends on the real channels. -/
theorem harness_restores_channels (mockInput : List String)
    (expected : List ExpectedEntry) (run : RunOutcome) (saved : SysState) :
    (runTestExec mockInput expected run saved).1 = saved ∧
    (runTestExec mockInput expected run
      ⟨InputChannel.real, OutputChannel.real⟩).1.stdin = InputChannel.real ∧
    (runTestExec mockInput expected run
      ⟨InputChannel.real, OutputChannel.real⟩).1.stdout = OutputChannel.real ∧
    (∀ st : SysState, (tryFinally (execBody expected run)
      (fun s => { s with stdout := OutputChannel.real }) st).1.stdout
        = OutputChannel.real) := by
  refine ⟨rfl, rfl, rfl, fun st => rfl⟩

/-- C4: on every exit path of the timeout guard — normal return, an error
raised by the work, or the timeout itself — the deadline timer has been
cancelled (`finally: if timer is not None: timer.cancel()`), so no armed
timer survives the call; and when the duration is absent no timer is ever
armed. -/
theorem timeout_guard_timer_never_leaks (timeoutTime : Option Nat) (work : Option PyExc) :
    (timeoutGuard timeoutTime work).timerArmedAfter = false ∧
    (timeoutTime = none → (timeoutGuard timeoutTime work).timerStarted = false) := by
  refine ⟨?_, ?_⟩
  · cases timeoutTime <;> simp [timeoutGuard]
  · intro h
    subst h
    simp [timeoutGuard]

theorem timeout_guard_timer_never_leaks_witness :
    (timeoutGuard none (some PyExc.keyboardInterrupt)).timerArmedAfter = false ∧
    (timeoutGuard none (some PyExc.keyboardInterrupt)).timerStarted = false :=
  ⟨(timeout_guard_timer_never_leaks none (some PyExc.keyboardInterrupt)).1,
   (timeout_guard_timer_never_leaks none (some PyExc.keyboardInterrupt)).2 rfl⟩

/-- C10: a `KeyboardInterrupt` arising while the work executes — including
one raised by the work itself, and the case where the duration is absent so
no timer was ever armed — is converted by the guard into a `TimeoutError`
whose message claims the allotted time was exceeded; the guard never lets a
`KeyboardInterrupt` propagate. -/
theorem keyboard_interrupt_always_becomes_timeout
    (timeoutTime : Option Nat) (work : Option PyExc) :
    (timeoutGuard timeoutTime (some PyExc.keyboardInterrupt)).result
      = some (PyExc.timeoutError (timeoutMessage timeoutTime)) ∧
    (timeoutGuard none (some PyExc.keyboardInterrupt)).result
      = some (PyExc.timeoutError (timeoutMessage none)) ∧
    (timeoutGuard timeoutTime work).result ≠ some PyExc.keyboardInterrupt := by
  refine ⟨rfl, rfl, ?_⟩
  match work with
  | none => simp [timeoutGuard]
  | some PyExc.keyboardInterrupt => simp [timeoutGuard]
  | some (PyExc.timeoutError m) => simp [timeoutGuard]
  | some (PyExc.assertionError m) => simp [timeoutGuard]
  | some (PyExc.typeError m) => simp [timeoutGuard]
  | some (PyExc.other m) => simp [timeoutGuard]

theorem keyboard_interrupt_always_becomes_timeout_witness :
    (timeoutGuard (some 1) (some PyExc.keyboardInterrupt)).result
      = some (PyExc.timeoutError (timeoutMessage (some 1))) ∧
    (timeoutGuard none none).result ≠ some PyExc.keyboardInterrupt :=
  ⟨(keyboard_interrupt_always_becomes_timeout (some 1) none).1,
   (keyboard_interrupt_always_becomes_timeout none none).2.2⟩

/-- C7: the substituted input function yields the queued strings one at a
time in declaration order (the `n`-th call returns the `n`-th queued string),
and once the queue is exhausted every further call raises the
`AssertionError` about too many input calls instead of returning a value. -/
theorem scripted_input_in_order_then_fails (l : List String) (n : Nat) :
    (∀ h : n < l.length, fakeInputCall l n = Except.ok (l.get ⟨n, h⟩)) ∧
    (l.length ≤ n → fakeInputCall l n = Except.error tooManyInputMsg) := by
  rw [show fakeInputCall l n = (fakeInputStep (l.drop n)).map Prod.fst from by
    rw [fakeInputCall, queueAfter_eq_drop]]
  refine ⟨?_, ?_⟩
  · intro h
    rw [List.drop_eq_getElem_cons h]
    simp [fakeInputStep, Except.map]
  · intro h
    rw [List.drop_eq_nil_iff.mpr h]
    simp [fakeInputStep, Except.map]

theorem scripted_input_in_order_then_fails_witness :
    fakeInputCall ["a", "b"] 1 = Except.ok "b" ∧
    fakeInputCall ["a", "b"] 2 = Except.error tooManyInputMsg :=
  ⟨(scripted_input_in_order_then_fails ["a", "b"] 1).1 (by decide),
   (scripted_input_in_order_then_fails ["a", "b"] 2).2 (by decide)⟩

end SchoolGrader
